import Mathlib

set_option maxHeartbeats 1000000

/-! Shallow embedding of the UVM assembler (src/assembler.py) and
interpreter (src/interpreter.py): the opcode table, the word codec, the
assembler, and the execution engine, with theorems checking the spec's
claims about them. Python's arbitrary-precision ints are embedded as `Int`
(as `Nat` where the source value is a nonnegative bit-field), `&` with an
all-ones mask as `% 2 ^ k`, and raised exceptions as `Except` errors. -/

/-- Decidable equality on `Except` results, for concrete evaluation. -/
def exceptDecEq {e a : Type} [DecidableEq e] [DecidableEq a] :
    (x y : Except e a) → Decidable (x = y)
  | .error u, .error v =>
    if h : u = v then .isTrue (by rw [h])
    else .isFalse (fun hc => h (Except.error.inj hc))
  | .ok u, .ok v =>
    if h : u = v then .isTrue (by rw [h])
    else .isFalse (fun hc => h (Except.ok.inj hc))
  | .error _, .ok _ => .isFalse (fun hc => Except.noConfusion hc)
  | .ok _, .error _ => .isFalse (fun hc => Except.noConfusion hc)

instance {e a : Type} [DecidableEq e] [DecidableEq a] : DecidableEq (Except e a) :=
  exceptDecEq

/-- Metadata of one opcode, one row of `OPCODES` in src/assembler.py:
tag `A`, operand field width `B_bits`, and the name of the operand field a
symbolic instruction must carry (`arg`, absent for STORE). -/
structure OpMeta where
  A : Nat
  B_bits : Nat
  arg : Option String
  deriving DecidableEq, Repr

/-- The opcode table `OPCODES` of src/assembler.py. -/
def OPCODES (op : String) : Option OpMeta :=
  if op = "CONST" then some ⟨8, 21, some "value"⟩
  else if op = "LOAD" then some ⟨21, 24, some "addr"⟩
  else if op = "STORE" then some ⟨28, 0, none⟩
  else if op = "MAX" then some ⟨25, 13, some "offset"⟩
  else none

/-- A symbolic instruction record: the `op` mnemonic plus the operand
fields that a program record may carry (`value`, `addr`, `offset`),
each optional. -/
structure SymInstr where
  op : String
  value : Option Int := none
  addr : Option Int := none
  offset : Option Int := none
  deriving DecidableEq, Repr

/-- Python's `str.upper()` on the mnemonic (`ins["op"].upper()`): map
`Char.toUpper` over the characters, written on the underlying character
list so that it evaluates by kernel reduction. -/
def strUpper (s : String) : String := ⟨s.data.map Char.toUpper⟩

/-- Field access `ins[arg_name]` on a symbolic instruction record;
`none` models a missing key (also when `arg_name` is itself `None`). -/
def getArg (ins : SymInstr) : Option String → Option Int
  | some "value" => ins.value
  | some "addr" => ins.addr
  | some "offset" => ins.offset
  | _ => none

/-- Errors raised by `assemble_instruction` in src/assembler.py. -/
inductive AsmError where
  | unknownMnemonic (op : String)
  | missingOperand (op : String)
  | operandOutOfRange (op : String) (b : Int)
  deriving DecidableEq, Repr

/-- The dict returned by `assemble_instruction`: mnemonic, tag, operand
(validated, hence nonnegative) and the packed 32-bit word. -/
structure IRItem where
  op : String
  A : Nat
  B : Option Nat
  word : Nat
  deriving DecidableEq, Repr

/-- `assemble_instruction` from src/assembler.py: resolve the mnemonic
case-insensitively, fetch and range-check the operand when the opcode has
a nonzero operand width, and pack the word as `A ||| (B <<< 5)` masked to
32 bits (just `A` masked when there is no operand). -/
def assemble_instruction (ins : SymInstr) : Except AsmError IRItem :=
  let op := strUpper ins.op
  match OPCODES op with
  | none => .error (.unknownMnemonic op)
  | some meta =>
    let A := meta.A &&& 0x1F
    if meta.B_bits = 0 then
      .ok { op := op, A := A, B := none, word := A &&& 0xFFFFFFFF }
    else
      match getArg ins meta.arg with
      | none => .error (.missingOperand op)
      | some b =>
        let maxB : Int := ((1 <<< meta.B_bits : Nat) : Int) - 1
        if 0 ≤ b ∧ b ≤ maxB then
          .ok { op := op, A := A, B := some b.toNat,
                word := (A ||| (b.toNat <<< 5)) &&& 0xFFFFFFFF }
        else
          .error (.operandOutOfRange op b)

/-- `struct.pack("<I", w)`: the four little-endian bytes of a 32-bit word. -/
def wordToBytes (w : Nat) : List Nat :=
  [w % 256, w / 256 % 256, w / 65536 % 256, w / 16777216 % 256]

/-- The core of `assemble_program` from src/assembler.py: assemble every
instruction (the list comprehension aborts on the first error, before any
output is written) and only then serialize the words, in order, as
little-endian 32-bit integers. -/
def assemble_program (data : List SymInstr) : Except AsmError (List Nat) := do
  let ir ← data.mapM assemble_instruction
  return (ir.map (fun item => wordToBytes item.word)).flatten

/-- `LAYOUT` from src/interpreter.py: tag `A` to mnemonic and operand
width. -/
def LAYOUT (A : Nat) : Option (String × Nat) :=
  if A = 8 then some ("CONST", 21)
  else if A = 21 then some ("LOAD", 24)
  else if A = 28 then some ("STORE", 0)
  else if A = 25 then some ("MAX", 13)
  else none

/-- Errors raised by the interpreter in src/interpreter.py. -/
inductive VMError where
  | unknownOpcode (A : Nat)
  | stackUnderflow (op : String)
  | invalidAddress
  | stepLimitExceeded
  | malformedProgram
  | unknownName (name : String)
  deriving DecidableEq, Repr

/-- `decode_word` from src/interpreter.py: extract the tag
`A = word &&& 0x1F`, look it up in `LAYOUT`, and when the opcode has a
nonzero operand width extract the operand `(word >>> 5)` masked to
`B_bits` bits. -/
def decode_word (word : Nat) : Except VMError (Nat × String × Option Nat) :=
  let A := word &&& 0x1F
  match LAYOUT A with
  | none => .error (.unknownOpcode A)
  | some (name, B_bits) =>
    if B_bits ≠ 0 then
      .ok (A, name, some ((word >>> 5) &&& ((1 <<< B_bits) - 1)))
    else
      .ok (A, name, none)

/-- Lookup in the sparse memory, the Python dict `addr -> value` embedded
as an association list (most recent insert first). -/
def memLookup : List (Int × Int) → Int → Option Int
  | [], _ => none
  | (k, v) :: rest, a => if k = a then some v else memLookup rest a

/-- Dict update: bind `a` to `v`, dropping any previous binding of `a`. -/
def memInsert (m : List (Int × Int)) (a v : Int) : List (Int × Int) :=
  (a, v) :: m.filter (fun p => p.1 != a)

/-- The VM state of class `VM` in src/interpreter.py. -/
structure VM where
  mem : List (Int × Int)
  stack : List Int
  pc : Nat
  prog_len : Nat
  deriving DecidableEq, Repr

/-- `VM.__init__`: empty memory, empty stack, `pc = 0`, `prog_len = 0`. -/
def VM.init : VM := { mem := [], stack := [], pc := 0, prog_len := 0 }

/-- `VM.mem_get`: fault on a negative address, else the stored value, or 0
for an untouched address. -/
def VM.mem_get (vm : VM) (addr : Int) : Except VMError Int :=
  if addr < 0 then .error .invalidAddress
  else .ok ((memLookup vm.mem addr).getD 0)

/-- `VM.mem_set`: fault on a negative address, else store the value masked
to 32 bits (`value & 0xFFFFFFFF`, which on Python ints is exactly
`value % 2 ^ 32` with a nonnegative result). -/
def VM.mem_set (vm : VM) (addr value : Int) : Except VMError VM :=
  if addr < 0 then .error .invalidAddress
  else .ok { vm with mem := memInsert vm.mem addr (value % 4294967296) }

/-- Combine a byte list into 32-bit little-endian words, one per 4-byte
chunk (`int.from_bytes(blob[i:i+4], "little")` in `VM.load_program`). -/
def bytesToWords : List Nat → List Nat
  | b0 :: b1 :: b2 :: b3 :: rest =>
      (b0 + b1 * 256 + b2 * 65536 + b3 * 16777216) :: bytesToWords rest
  | _ => []

/-- The loading loop of `VM.load_program`: write each word into the next
memory cell, starting at cell `i`. -/
def VM.loadWords (vm : VM) : List Nat → Nat → Except VMError VM
  | [], _ => .ok vm
  | w :: rest, i => do
      let vm' ← vm.mem_set (i : Int) (w : Int)
      vm'.loadWords rest (i + 1)

/-- `VM.load_program` from src/interpreter.py, applied to the bytes of the
binary file: reject a byte length not divisible by 4, split the bytes into
little-endian words, store them at cells `0..n-1`, set `prog_len` to the
word count and reset `pc` to 0. -/
def VM.load_program (vm : VM) (blob : List Nat) : Except VMError VM :=
  if blob.length % 4 ≠ 0 then
    .error .malformedProgram
  else do
    let words := bytesToWords blob
    let vm' ← vm.loadWords words 0
    .ok { vm' with prog_len := words.length, pc := 0 }

/-- `VM.step` from src/interpreter.py: execute one instruction; `false`
with no state change once `pc` has run past the program. The dispatch
mirrors the source's `if/elif` chain on the decoded mnemonic. The decoded
operand `B` is `none` exactly for STORE, which never reads it, so reading
it with default 0 (`B.getD 0`) is exact at every use site. The word read
from memory is a masked stored value, hence nonnegative, so `Int.toNat`
on it is exact. The final `else` mirrors the `raise` for a mnemonic
outside the dispatch chain. -/
def VM.step (vm : VM) : Except VMError (Bool × VM) :=
  if vm.prog_len ≤ vm.pc then .ok (false, vm)
  else do
    let word ← vm.mem_get (vm.pc : Int)
    let vm1 : VM := { vm with pc := vm.pc + 1 }
    let dec ← decode_word word.toNat
    let name := dec.2.1
    let B := dec.2.2
    if name = "CONST" then
      .ok (true, { vm1 with stack := ((B.getD 0 : Nat) : Int) :: vm1.stack })
    else if name = "LOAD" then do
      let val ← vm1.mem_get ((B.getD 0 : Nat) : Int)
      .ok (true, { vm1 with stack := val :: vm1.stack })
    else if name = "STORE" then
      match vm1.stack with
      | addr :: val :: rest => do
          let vm2 ← VM.mem_set { vm1 with stack := rest } addr val
          .ok (true, vm2)
      | _ => .error (.stackUnderflow "STORE")
    else if name = "MAX" then
      match vm1.stack with
      | base :: x :: rest => do
          let y ← vm1.mem_get (base + ((B.getD 0 : Nat) : Int))
          .ok (true, { vm1 with stack := max x y :: rest })
      | _ => .error (.stackUnderflow "MAX")
    else .error (.unknownName name)

/-- The loop of `VM.run`, recursing on the remaining step budget
`max_steps - steps`; the guard `steps >= max_steps` of the source is the
exhausted-budget case. -/
def VM.runAux (vm : VM) : Nat → Except VMError VM
  | 0 => if vm.prog_len ≤ vm.pc then .ok vm else .error .stepLimitExceeded
  | r + 1 =>
    if vm.prog_len ≤ vm.pc then .ok vm
    else do
      let s ← vm.step
      VM.runAux s.2 r

/-- `VM.run` from src/interpreter.py: step while `pc < prog_len`, failing
with `stepLimitExceeded` once `max_steps` steps have been taken without
halting. -/
def VM.run (vm : VM) (max_steps : Nat) : Except VMError VM :=
  vm.runAux max_steps

/-- `n` consecutive calls to `VM.step`, propagating any fault. -/
def VM.stepN (vm : VM) : Nat → Except VMError VM
  | 0 => .ok vm
  | n + 1 => do
    let s ← vm.step
    VM.stepN s.2 n

/-- Assemble a symbolic program, load the binary into a fresh VM and run
it — the assembler piped into the interpreter; `none` when any stage
fails. -/
def runProgram (prog : List SymInstr) (max_steps : Nat) : Option VM :=
  match assemble_program prog with
  | .error _ => none
  | .ok blob =>
    match VM.init.load_program blob with
    | .error _ => none
    | .ok vm =>
      match vm.run max_steps with
      | .error _ => none
      | .ok vmf => some vmf
-- Evaluation lemmas for `assemble_instruction`, one per mnemonic, and
-- bridging lemmas between the source's bit operations and arithmetic.

/-- Assembling a CONST instruction, evaluated one step. -/
theorem assemble_eval_const (ins : SymInstr) (hC : strUpper ins.op = "CONST") :
    assemble_instruction ins =
      match ins.value with
      | none => .error (.missingOperand "CONST")
      | some b =>
        if 0 ≤ b ∧ b ≤ 2097151 then
          .ok { op := "CONST", A := 8, B := some b.toNat,
                word := (8 ||| b.toNat <<< 5) &&& 0xFFFFFFFF }
        else .error (.operandOutOfRange "CONST" b) := by
  unfold assemble_instruction
  rw [hC]
  rfl

/-- Assembling a LOAD instruction, evaluated one step. -/
theorem assemble_eval_load (ins : SymInstr) (hL : strUpper ins.op = "LOAD") :
    assemble_instruction ins =
      match ins.addr with
      | none => .error (.missingOperand "LOAD")
      | some b =>
        if 0 ≤ b ∧ b ≤ 16777215 then
          .ok { op := "LOAD", A := 21, B := some b.toNat,
                word := (21 ||| b.toNat <<< 5) &&& 0xFFFFFFFF }
        else .error (.operandOutOfRange "LOAD" b) := by
  unfold assemble_instruction
  rw [hL]
  rfl

/-- Assembling a STORE instruction always succeeds, ignoring any operand
fields the record carries; the word is just the 5-bit tag. -/
theorem assemble_eval_store (ins : SymInstr) (hS : strUpper ins.op = "STORE") :
    assemble_instruction ins =
      .ok { op := "STORE", A := 28, B := none, word := 28 } := by
  unfold assemble_instruction
  rw [hS]
  rfl

/-- Assembling a MAX instruction, evaluated one step. -/
theorem assemble_eval_max (ins : SymInstr) (hM : strUpper ins.op = "MAX") :
    assemble_instruction ins =
      match ins.offset with
      | none => .error (.missingOperand "MAX")
      | some b =>
        if 0 ≤ b ∧ b ≤ 8191 then
          .ok { op := "MAX", A := 25, B := some b.toNat,
                word := (25 ||| b.toNat <<< 5) &&& 0xFFFFFFFF }
        else .error (.operandOutOfRange "MAX" b) := by
  unfold assemble_instruction
  rw [hM]
  rfl

/-- An unknown mnemonic is rejected. -/
theorem assemble_eval_other (ins : SymInstr)
    (h1 : strUpper ins.op ≠ "CONST") (h2 : strUpper ins.op ≠ "LOAD")
    (h3 : strUpper ins.op ≠ "STORE") (h4 : strUpper ins.op ≠ "MAX") :
    assemble_instruction ins = .error (.unknownMnemonic (strUpper ins.op)) := by
  simp [assemble_instruction, OPCODES, h1, h2, h3, h4]

/-- Packing a small tag beside a shifted field is plain addition. -/
theorem or_shiftLeft_eq_add {a : Nat} (b k : Nat) (h : a < 2 ^ k) :
    a ||| b <<< k = 2 ^ k * b + a := by
  rw [Nat.shiftLeft_eq, Nat.mul_comm b (2 ^ k), Nat.or_comm]
  exact (Nat.mul_add_lt_is_or h b).symm

/-- Decoding a packed word `A ||| bn <<< 5` (masked to 32 bits) recovers
the tag, the mnemonic `LAYOUT` assigns to it, and the operand. -/
theorem decode_word_add (A bits bn : Nat) (name : String)
    (hL : LAYOUT A = some (name, bits)) (hbits : bits ≠ 0)
    (hA : A < 32) (hbn : bn < 2 ^ bits) (hb27 : bits ≤ 27) :
    decode_word ((A ||| bn <<< 5) &&& 0xFFFFFFFF) = .ok (A, name, some bn) := by
  have e5 : (2 : Nat) ^ 5 = 32 := by norm_num
  have e27 : (2 : Nat) ^ 27 = 134217728 := by norm_num
  have e32 : (2 : Nat) ^ 32 = 4294967296 := by norm_num
  have hpow : 2 ^ bits ≤ 2 ^ 27 := Nat.pow_le_pow_right (by norm_num) hb27
  have hA5 : A < 2 ^ 5 := by omega
  have hw : (A ||| bn <<< 5) &&& 0xFFFFFFFF = 2 ^ 5 * bn + A := by
    rw [or_shiftLeft_eq_add bn 5 hA5]
    rw [show (0xFFFFFFFF : Nat) = 2 ^ 32 - 1 from by norm_num,
      Nat.and_pow_two_sub_one_eq_mod]
    omega
  rw [hw]
  have htag : (2 ^ 5 * bn + A) &&& 0x1F = A := by
    rw [show (0x1F : Nat) = 2 ^ 5 - 1 from by norm_num,
      Nat.and_pow_two_sub_one_eq_mod]
    omega
  have hop : ((2 ^ 5 * bn + A) >>> 5) &&& ((1 <<< bits) - 1) = bn := by
    rw [Nat.shiftRight_eq_div_pow]
    rw [show ((2 ^ 5 * bn + A) / 2 ^ 5 : Nat) = bn from by omega]
    rw [show ((1 : Nat) <<< bits) = 2 ^ bits from by rw [Nat.shiftLeft_eq, one_mul],
      Nat.and_pow_two_sub_one_eq_mod, Nat.mod_eq_of_lt hbn]
  unfold decode_word
  simp only [htag, hL]
  rw [if_pos hbits, hop]

/-- C2: round-trip of the word codec — decoding the word produced by a
successful assembly yields back exactly the assembled opcode tag, its
mnemonic, and the operand (none for the zero-operand opcode). -/
theorem claim_C2 (ins : SymInstr) (item : IRItem)
    (h : assemble_instruction ins = .ok item) :
    decode_word item.word = .ok (item.A, item.op, item.B) := by
  by_cases hC : strUpper ins.op = "CONST"
  · rw [assemble_eval_const ins hC] at h
    split at h
    · exact absurd h (by simp)
    · rename_i b heq
      split at h
      · rename_i hr
        cases h
        show decode_word ((8 ||| b.toNat <<< 5) &&& 0xFFFFFFFF) =
          .ok (8, "CONST", some b.toNat)
        have hbn : b.toNat < 2 ^ 21 := by
          have h1 := hr.1; have h2 := hr.2
          have e : (2 : Nat) ^ 21 = 2097152 := by norm_num
          omega
        exact decode_word_add 8 21 b.toNat "CONST" (by decide) (by decide)
          (by decide) hbn (by decide)
      · exact absurd h (by simp)
  by_cases hLd : strUpper ins.op = "LOAD"
  · rw [assemble_eval_load ins hLd] at h
    split at h
    · exact absurd h (by simp)
    · rename_i b heq
      split at h
      · rename_i hr
        cases h
        show decode_word ((21 ||| b.toNat <<< 5) &&& 0xFFFFFFFF) =
          .ok (21, "LOAD", some b.toNat)
        have hbn : b.toNat < 2 ^ 24 := by
          have h1 := hr.1; have h2 := hr.2
          have e : (2 : Nat) ^ 24 = 16777216 := by norm_num
          omega
        exact decode_word_add 21 24 b.toNat "LOAD" (by decide) (by decide)
          (by decide) hbn (by decide)
      · exact absurd h (by simp)
  by_cases hS : strUpper ins.op = "STORE"
  · rw [assemble_eval_store ins hS] at h
    cases h
    rfl
  by_cases hM : strUpper ins.op = "MAX"
  · rw [assemble_eval_max ins hM] at h
    split at h
    · exact absurd h (by simp)
    · rename_i b heq
      split at h
      · rename_i hr
        cases h
        show decode_word ((25 ||| b.toNat <<< 5) &&& 0xFFFFFFFF) =
          .ok (25, "MAX", some b.toNat)
        have hbn : b.toNat < 2 ^ 13 := by
          have h1 := hr.1; have h2 := hr.2
          have e : (2 : Nat) ^ 13 = 8192 := by norm_num
          omega
        exact decode_word_add 25 13 b.toNat "MAX" (by decide) (by decide)
          (by decide) hbn (by decide)
      · exact absurd h (by simp)
  · rw [assemble_eval_other ins hC hLd hS hM] at h
    exact absurd h (by simp)

/-- Witness for C2: assembling `CONST 7` packs word 232, and decoding 232
gives back tag 8, mnemonic CONST and operand 7. -/
theorem claim_C2_witness :
    assemble_instruction { op := "CONST", value := some 7 } =
      .ok { op := "CONST", A := 8, B := some 7, word := 232 } ∧
    decode_word 232 = .ok (8, "CONST", some 7) := by
  constructor
  · decide
  · exact claim_C2 { op := "CONST", value := some 7 }
      { op := "CONST", A := 8, B := some 7, word := 232 } (by decide)
/-- C5 counterexample: the symbolic instruction `STORE` with a supplied
operand field `value = 5` is silently accepted by the assembler — it is
not rejected, contradicting the claim that the operand must be absent. -/
theorem claim_C5_counterexample :
    assemble_instruction { op := "STORE", value := some 5 } =
      .ok { op := "STORE", A := 28, B := none, word := 28 } := by decide

/-- C5 amended: for the zero-operand opcode STORE, any supplied operand
field is ignored — assembly always succeeds and the packed word is just
the 5-bit tag 28. -/
theorem claim_C5_amended (ins : SymInstr) (hS : strUpper ins.op = "STORE") :
    assemble_instruction ins =
      .ok { op := "STORE", A := 28, B := none, word := 28 } :=
  assemble_eval_store ins hS

/-- Witness for C5 amended: `store` with a stray `value` field assembles
to the bare tag word 28. -/
theorem claim_C5_amended_witness :
    strUpper "store" = "STORE" ∧
    assemble_instruction { op := "store", value := some 5 } =
      .ok { op := "STORE", A := 28, B := none, word := 28 } :=
  ⟨by decide, claim_C5_amended { op := "store", value := some 5 } (by decide)⟩

/-- C7: for each opcode with a nonzero operand width (CONST with 21 bits,
LOAD with 24, MAX with 13), encoding fails with `operandOutOfRange` at
operand `2 ^ operand_bits` and succeeds at `2 ^ operand_bits - 1`. -/
theorem claim_C7 :
    assemble_instruction { op := "CONST", value := some (2 ^ 21) } =
      .error (.operandOutOfRange "CONST" (2 ^ 21)) ∧
    assemble_instruction { op := "CONST", value := some (2 ^ 21 - 1) } =
      .ok { op := "CONST", A := 8, B := some (2 ^ 21 - 1), word := 67108840 } ∧
    assemble_instruction { op := "LOAD", addr := some (2 ^ 24) } =
      .error (.operandOutOfRange "LOAD" (2 ^ 24)) ∧
    assemble_instruction { op := "LOAD", addr := some (2 ^ 24 - 1) } =
      .ok { op := "LOAD", A := 21, B := some (2 ^ 24 - 1), word := 536870901 } ∧
    assemble_instruction { op := "MAX", offset := some (2 ^ 13) } =
      .error (.operandOutOfRange "MAX" (2 ^ 13)) ∧
    assemble_instruction { op := "MAX", offset := some (2 ^ 13 - 1) } =
      .ok { op := "MAX", A := 25, B := some (2 ^ 13 - 1), word := 262137 } := by
  refine ⟨by decide, by decide, by decide, by decide, by decide, by decide⟩

/-- C1 counterexample: the loaded one-word program `[CONST 0]` (binary
bytes 08 00 00 00) requires exactly 1 step to halt, i.e. `N = 0`; the
claim asserts that every `max_steps ≥ N` halts normally, but the code
fails with `stepLimitExceeded` at `max_steps = 0`. -/
theorem claim_C1_counterexample :
    (VM.init.load_program [8, 0, 0, 0]).bind (fun vm => vm.run 1) =
      .ok { mem := [(0, 8)], stack := [0], pc := 1, prog_len := 1 } ∧
    (VM.init.load_program [8, 0, 0, 0]).bind (fun vm => vm.run 0) =
      .error .stepLimitExceeded := by
  refine ⟨by decide, by decide⟩
-- Evaluation lemmas for the execution engine.

/-- Bind on a successful `Except` computation. -/
theorem exceptBind_ok {e a c : Type} (x : a) (f : a → Except e c) :
    (Except.ok x >>= f) = f x := rfl

/-- Bind on a failed `Except` computation. -/
theorem exceptBind_err {e a c : Type} (err : e) (f : a → Except e c) :
    ((Except.error err : Except e a) >>= f) = Except.error err := rfl

/-- `mem_get` on a nonnegative address never faults. -/
theorem mem_get_of_nonneg (vm : VM) (a : Int) (ha : 0 ≤ a) :
    vm.mem_get a = .ok ((memLookup vm.mem a).getD 0) := by
  unfold VM.mem_get
  rw [if_neg (by omega)]

/-- `mem_set` on a nonnegative address never faults and masks the value. -/
theorem mem_set_of_nonneg (vm : VM) (a v : Int) (ha : 0 ≤ a) :
    vm.mem_set a v =
      .ok { vm with mem := memInsert vm.mem a (v % 4294967296) } := by
  unfold VM.mem_set
  rw [if_neg (by omega)]

/-- `mem_get` at a natural-number address (always nonnegative). -/
theorem mem_get_natCast (vm : VM) (n : Nat) :
    vm.mem_get (n : Int) = .ok ((memLookup vm.mem (n : Int)).getD 0) :=
  mem_get_of_nonneg vm _ (Int.natCast_nonneg n)

/-- Complete case analysis of `decode_word`: the result is either the
unknown-opcode error or one of the four table rows, with the operand cut
to the row's field width. -/
theorem decode_word_cases (w : Nat) :
    decode_word w = .error (.unknownOpcode (w &&& 0x1F)) ∨
    decode_word w = .ok (8, "CONST", some ((w >>> 5) &&& 2097151)) ∨
    decode_word w = .ok (21, "LOAD", some ((w >>> 5) &&& 16777215)) ∨
    decode_word w = .ok (28, "STORE", none) ∨
    decode_word w = .ok (25, "MAX", some ((w >>> 5) &&& 8191)) := by
  unfold decode_word LAYOUT
  by_cases h8 : w &&& 0x1F = 8
  · right; left; simp [h8]
  by_cases h21 : w &&& 0x1F = 21
  · right; right; left; simp [h8, h21]
  by_cases h28 : w &&& 0x1F = 28
  · right; right; right; left; simp [h8, h21, h28]
  by_cases h25 : w &&& 0x1F = 25
  · right; right; right; right; simp [h8, h21, h28, h25]
  · left; simp [h8, h21, h28, h25]

/-- Whatever a successful mid-program step does: it reports `true`, it
bumps `pc` by exactly 1, it leaves `prog_len` alone, and the stack/memory
change is one of: push of a decoded operand (below `2^32`), push of a
value read from memory, the STORE pop-pop-write, or the MAX
pop-pop-read-push. -/
theorem step_ok_shape (vm : VM) (b : Bool) (vm' : VM)
    (hpc : vm.pc < vm.prog_len) (h : vm.step = .ok (b, vm')) :
    b = true ∧ vm'.prog_len = vm.prog_len ∧ vm'.pc = vm.pc + 1 ∧
    ((∃ bn : Nat, bn < 4294967296 ∧ vm'.stack = (bn : Int) :: vm.stack ∧
        vm'.mem = vm.mem) ∨
     (∃ aIdx y : Int, vm.mem_get aIdx = .ok y ∧ vm'.stack = y :: vm.stack ∧
        vm'.mem = vm.mem) ∨
     (∃ a v : Int, ∃ rest : List Int, vm.stack = a :: v :: rest ∧ 0 ≤ a ∧
        vm'.stack = rest ∧ vm'.mem = memInsert vm.mem a (v % 4294967296)) ∨
     (∃ base x y : Int, ∃ rest : List Int, ∃ aIdx : Int,
        vm.stack = base :: x :: rest ∧ vm.mem_get aIdx = .ok y ∧
        vm'.stack = max x y :: rest ∧ vm'.mem = vm.mem)) := by
  unfold VM.step at h
  rw [if_neg (by omega : ¬ vm.prog_len ≤ vm.pc)] at h
  rw [mem_get_of_nonneg vm _ (Int.natCast_nonneg _), exceptBind_ok] at h
  rcases decode_word_cases (((memLookup vm.mem (vm.pc : Int)).getD 0).toNat)
    with hd | hd | hd | hd | hd <;> rw [hd] at h
  · rw [exceptBind_err] at h
    exact absurd h (by simp)
  · -- CONST
    rw [exceptBind_ok] at h
    dsimp only [Option.getD_some] at h
    rw [if_pos rfl] at h
    injection h with h1
    injection h1 with hb hvm
    subst hvm
    refine ⟨hb.symm, rfl, rfl, Or.inl ⟨_, ?_, rfl, rfl⟩⟩
    exact lt_of_le_of_lt Nat.and_le_right (by norm_num)
  · -- LOAD
    rw [exceptBind_ok] at h
    dsimp only [Option.getD_some] at h
    rw [if_neg (by decide), if_pos rfl] at h
    rw [mem_get_natCast, exceptBind_ok] at h
    injection h with h1
    injection h1 with hb hvm
    subst hvm
    exact ⟨hb.symm, rfl, rfl, Or.inr (Or.inl
      ⟨(((((memLookup vm.mem (vm.pc : Int)).getD 0).toNat >>> 5 &&& 16777215
          : Nat)) : Int),
       (memLookup vm.mem ((((memLookup vm.mem (vm.pc : Int)).getD 0).toNat >>> 5
          &&& 16777215 : Nat) : Int)).getD 0,
       mem_get_natCast vm _, rfl, rfl⟩)⟩
  · -- STORE
    rw [exceptBind_ok] at h
    dsimp only [Option.getD_some] at h
    rw [if_neg (by decide), if_neg (by decide), if_pos rfl] at h
    split at h
    · rename_i addr val rest hstk
      by_cases ha : addr < 0
      · unfold VM.mem_set at h
        rw [if_pos ha, exceptBind_err] at h
        exact absurd h (by simp)
      · rw [mem_set_of_nonneg _ _ _ (Int.not_lt.mp ha), exceptBind_ok] at h
        injection h with h1
        injection h1 with hb hvm
        subst hvm
        exact ⟨hb.symm, rfl, rfl,
          Or.inr (Or.inr (Or.inl ⟨addr, val, rest, hstk, Int.not_lt.mp ha,
            rfl, rfl⟩))⟩
    · exact absurd h (by simp)
  · -- MAX
    rw [exceptBind_ok] at h
    dsimp only [Option.getD_some] at h
    rw [if_neg (by decide), if_neg (by decide), if_neg (by decide),
      if_pos rfl] at h
    split at h
    · rename_i base x rest hstk
      by_cases ha : base + ((((memLookup vm.mem (vm.pc : Int)).getD 0).toNat >>> 5
          &&& 8191 : Nat) : Int) < 0
      · unfold VM.mem_get at h
        rw [if_pos ha, exceptBind_err] at h
        exact absurd h (by simp)
      · rw [mem_get_of_nonneg _ _ (Int.not_lt.mp ha), exceptBind_ok] at h
        injection h with h1
        injection h1 with hb hvm
        subst hvm
        exact ⟨hb.symm, rfl, rfl,
          Or.inr (Or.inr (Or.inr ⟨base, x,
            (memLookup vm.mem (base + ((((memLookup vm.mem (vm.pc : Int)).getD
              0).toNat >>> 5 &&& 8191 : Nat) : Int))).getD 0, rest,
            base + ((((memLookup vm.mem (vm.pc : Int)).getD 0).toNat >>> 5
              &&& 8191 : Nat) : Int), hstk,
            mem_get_of_nonneg vm _ (Int.not_lt.mp ha), rfl, rfl⟩))⟩
    · exact absurd h (by simp)
-- The 32-bit state invariant and its preservation.

/-- A successful lookup finds an entry of the association list. -/
theorem memLookup_mem {m : List (Int × Int)} {a v : Int}
    (h : memLookup m a = some v) : (a, v) ∈ m := by
  induction m with
  | nil => exact absurd h (by simp [memLookup])
  | cons p rest ih =>
    obtain ⟨k, w⟩ := p
    unfold memLookup at h
    by_cases hk : k = a
    · rw [if_pos hk] at h
      injection h with h1
      subst hk
      subst h1
      exact List.mem_cons_self _ _
    · rw [if_neg hk] at h
      exact List.mem_cons_of_mem _ (ih h)

/-- Every entry after an insert is the new binding or an old entry. -/
theorem memInsert_subset {m : List (Int × Int)} {a v : Int} {p : Int × Int}
    (h : p ∈ memInsert m a v) : p = (a, v) ∨ p ∈ m := by
  unfold memInsert at h
  rcases List.mem_cons.mp h with h | h
  · exact Or.inl h
  · exact Or.inr (List.mem_filter.mp h).1

/-- The 32-bit state invariant of the claim: every stack element and every
stored memory value lies in `0..2^32-1`, and every memory address present
is nonnegative. -/
def GoodVM (vm : VM) : Prop :=
  (∀ x ∈ vm.stack, 0 ≤ x ∧ x < 4294967296) ∧
  (∀ p ∈ vm.mem, 0 ≤ p.1 ∧ 0 ≤ p.2 ∧ p.2 < 4294967296)

instance (vm : VM) : Decidable (GoodVM vm) := by
  unfold GoodVM
  infer_instance

/-- On a good state, every memory read (with default 0) is in range. -/
theorem goodVM_lookup {vm : VM} (hg : GoodVM vm) (a : Int) :
    0 ≤ (memLookup vm.mem a).getD 0 ∧ (memLookup vm.mem a).getD 0 < 4294967296 := by
  cases hl : memLookup vm.mem a with
  | none => simp
  | some v =>
    have hv := hg.2 _ (memLookup_mem hl)
    simpa using ⟨hv.2.1, hv.2.2⟩

/-- A successful `mem_get` on a good state returns an in-range value. -/
theorem mem_get_ok_bounds {vm : VM} (hg : GoodVM vm) {a y : Int}
    (h : vm.mem_get a = .ok y) : 0 ≤ y ∧ y < 4294967296 := by
  unfold VM.mem_get at h
  split at h
  · exact absurd h (by simp)
  · injection h with h1
    subst h1
    exact goodVM_lookup hg a

/-- Inserting a masked value at a nonnegative address keeps a state good
(whatever the other fields do, as long as the stack does not grow). -/
theorem goodVM_insert {vm : VM} (hg : GoodVM vm) {a v : Int} (ha : 0 ≤ a) :
    ∀ p ∈ memInsert vm.mem a (v % 4294967296),
      0 ≤ p.1 ∧ 0 ≤ p.2 ∧ p.2 < 4294967296 := by
  intro p hp
  rcases memInsert_subset hp with rfl | hp
  · exact ⟨ha, Int.emod_nonneg v (by norm_num),
      Int.emod_lt_of_pos v (by norm_num)⟩
  · exact hg.2 p hp

/-- A successful step preserves the 32-bit invariant. -/
theorem step_preserves_good {vm : VM} (hg : GoodVM vm) {p : Bool × VM}
    (h : vm.step = .ok p) : GoodVM p.2 := by
  obtain ⟨b, vm'⟩ := p
  by_cases hpc : vm.prog_len ≤ vm.pc
  · unfold VM.step at h
    rw [if_pos hpc] at h
    injection h with h1
    injection h1 with hb hvm
    subst hvm
    exact hg
  · obtain ⟨-, -, -, hshape⟩ := step_ok_shape vm b vm' (by omega) h
    rcases hshape with ⟨bn, hbn, hs, hm⟩ | ⟨aIdx, y, hy, hs, hm⟩ |
      ⟨a, v, rest, hstk, ha, hs, hm⟩ | ⟨base, x, y, rest, aIdx, hstk, hy, hs, hm⟩
    · refine ⟨?_, hm ▸ hg.2⟩
      intro z hz
      rw [hs] at hz
      rcases List.mem_cons.mp hz with rfl | hz
      · constructor
        · exact Int.natCast_nonneg bn
        · exact_mod_cast hbn
      · exact hg.1 z hz
    · refine ⟨?_, hm ▸ hg.2⟩
      intro z hz
      rw [hs] at hz
      rcases List.mem_cons.mp hz with rfl | hz
      · exact mem_get_ok_bounds hg hy
      · exact hg.1 z hz
    · refine ⟨?_, hm ▸ goodVM_insert hg ha⟩
      intro z hz
      rw [hs] at hz
      have hzs : z ∈ vm.stack := by
        rw [hstk]
        exact List.mem_cons_of_mem _ (List.mem_cons_of_mem _ hz)
      exact hg.1 z hzs
    · refine ⟨?_, hm ▸ hg.2⟩
      intro z hz
      rw [hs] at hz
      have hx : x ∈ vm.stack := by
        rw [hstk]
        exact List.mem_cons_of_mem _ (List.mem_cons_self _ _)
      rcases List.mem_cons.mp hz with rfl | hz
      · have hxb := hg.1 x hx
        have hyb := mem_get_ok_bounds hg hy
        constructor
        · exact le_max_of_le_left hxb.1
        · exact max_lt hxb.2 hyb.2
      · have hzs : z ∈ vm.stack := by
          rw [hstk]
          exact List.mem_cons_of_mem _ (List.mem_cons_of_mem _ hz)
        exact hg.1 z hzs
/-- The errors a single step can raise: an unknown opcode, a stack
underflow, or the negative-address fault — and in the last case the
offending base address is a negative stack element. -/
theorem step_error_shape (vm : VM) (e : VMError) (h : vm.step = .error e) :
    (∃ A, e = .unknownOpcode A) ∨ (∃ s, e = .stackUnderflow s) ∨
    (e = .invalidAddress ∧ ∃ z ∈ vm.stack, z < 0) := by
  by_cases hpc : vm.prog_len ≤ vm.pc
  · unfold VM.step at h
    rw [if_pos hpc] at h
    exact absurd h (by simp)
  · unfold VM.step at h
    rw [if_neg hpc] at h
    rw [mem_get_of_nonneg vm _ (Int.natCast_nonneg _), exceptBind_ok] at h
    rcases decode_word_cases (((memLookup vm.mem (vm.pc : Int)).getD 0).toNat)
      with hd | hd | hd | hd | hd <;> rw [hd] at h
    · rw [exceptBind_err] at h
      injection h with h1
      exact Or.inl ⟨_, h1.symm⟩
    · rw [exceptBind_ok] at h
      dsimp only [Option.getD_some] at h
      rw [if_pos rfl] at h
      exact absurd h (by simp)
    · rw [exceptBind_ok] at h
      dsimp only [Option.getD_some] at h
      rw [if_neg (by decide), if_pos rfl] at h
      rw [mem_get_natCast, exceptBind_ok] at h
      exact absurd h (by simp)
    · rw [exceptBind_ok] at h
      dsimp only [Option.getD_some] at h
      rw [if_neg (by decide), if_neg (by decide), if_pos rfl] at h
      split at h
      · rename_i addr val rest hstk
        by_cases ha : addr < 0
        · refine Or.inr (Or.inr ⟨?_, addr, ?_, ha⟩)
          · unfold VM.mem_set at h
            rw [if_pos ha, exceptBind_err] at h
            injection h with h1
            exact h1.symm
          · rw [hstk]
            exact List.mem_cons_self _ _
        · rw [mem_set_of_nonneg _ _ _ (Int.not_lt.mp ha), exceptBind_ok] at h
          exact absurd h (by simp)
      · injection h with h1
        exact Or.inr (Or.inl ⟨_, h1.symm⟩)
    · rw [exceptBind_ok] at h
      dsimp only [Option.getD_some] at h
      rw [if_neg (by decide), if_neg (by decide), if_neg (by decide),
        if_pos rfl] at h
      split at h
      · rename_i base x rest hstk
        by_cases ha : base + ((((memLookup vm.mem (vm.pc : Int)).getD 0).toNat
            >>> 5 &&& 8191 : Nat) : Int) < 0
        · refine Or.inr (Or.inr ⟨?_, base, ?_, by omega⟩)
          · unfold VM.mem_get at h
            rw [if_pos ha, exceptBind_err] at h
            injection h with h1
            exact h1.symm
          · rw [hstk]
            exact List.mem_cons_self _ _
        · rw [mem_get_of_nonneg _ _ (Int.not_lt.mp ha), exceptBind_ok] at h
          exact absurd h (by simp)
      · injection h with h1
        exact Or.inr (Or.inl ⟨_, h1.symm⟩)

/-- The loading loop preserves the invariant: it writes masked words at
nonnegative addresses and never touches the stack. -/
theorem loadWords_good {vm : VM} (hg : GoodVM vm) (ws : List Nat) (i : Nat)
    {vm' : VM} (h : vm.loadWords ws i = .ok vm') : GoodVM vm' := by
  induction ws generalizing vm i with
  | nil =>
    unfold VM.loadWords at h
    injection h with h1
    subst h1
    exact hg
  | cons w rest ih =>
    unfold VM.loadWords at h
    rw [mem_set_of_nonneg _ _ _ (Int.natCast_nonneg i), exceptBind_ok] at h
    have hg2 : GoodVM { vm with
        mem := memInsert vm.mem (i : Int) ((w : Int) % 4294967296) } :=
      ⟨hg.1, goodVM_insert hg (Int.natCast_nonneg i)⟩
    exact ih hg2 (i + 1) h

/-- A freshly initialized VM satisfies the invariant. -/
theorem goodVM_init : GoodVM VM.init := by
  constructor <;> intro x hx <;> simp [VM.init] at hx

/-- Loading a program into a fresh VM yields a state satisfying the
invariant. -/
theorem load_program_good {blob : List Nat} {vm0 : VM}
    (h : VM.init.load_program blob = .ok vm0) : GoodVM vm0 := by
  unfold VM.load_program at h
  split at h
  · exact absurd h (by simp)
  · dsimp only [] at h
    cases hlw : VM.init.loadWords (bytesToWords blob) 0 with
    | error e =>
      rw [hlw, exceptBind_err] at h
      exact absurd h (by simp)
    | ok vmw =>
      rw [hlw, exceptBind_ok] at h
      injection h with h1
      subst h1
      have hgw : GoodVM vmw := loadWords_good goodVM_init _ _ hlw
      exact ⟨hgw.1, hgw.2⟩

/-- Any number of successful steps preserves the invariant. -/
theorem stepN_good {vm : VM} (hg : GoodVM vm) (n : Nat) {vm' : VM}
    (h : vm.stepN n = .ok vm') : GoodVM vm' := by
  induction n generalizing vm with
  | zero =>
    unfold VM.stepN at h
    injection h with h1
    subst h1
    exact hg
  | succ n ih =>
    unfold VM.stepN at h
    cases hs : vm.step with
    | error e =>
      rw [hs, exceptBind_err] at h
      exact absurd h (by simp)
    | ok p =>
      rw [hs, exceptBind_ok] at h
      exact ih (step_preserves_good hg hs) h

/-- From an invariant-satisfying state, stepping never reaches the
negative-address fault. -/
theorem stepN_not_invalid {vm : VM} (hg : GoodVM vm) (n : Nat) :
    vm.stepN n ≠ .error .invalidAddress := by
  induction n generalizing vm with
  | zero =>
    unfold VM.stepN
    simp
  | succ n ih =>
    unfold VM.stepN
    cases hs : vm.step with
    | error e =>
      rw [exceptBind_err]
      rcases step_error_shape vm e hs with ⟨A, rfl⟩ | ⟨s, rfl⟩ | ⟨rfl, z, hz, hz0⟩
      · simp
      · simp
      · exact absurd hz0 (Int.not_lt.mpr (hg.1 z hz).1)
    | ok p =>
      rw [exceptBind_ok]
      exact ih (step_preserves_good hg hs)

/-- From an invariant-satisfying state, running never reaches the
negative-address fault either. -/
theorem runAux_not_invalid {vm : VM} (hg : GoodVM vm) (r : Nat) :
    vm.runAux r ≠ .error .invalidAddress := by
  induction r generalizing vm with
  | zero =>
    unfold VM.runAux
    split <;> simp
  | succ r ih =>
    unfold VM.runAux
    split
    · simp
    · cases hs : vm.step with
      | error e =>
        rw [exceptBind_err]
        rcases step_error_shape vm e hs with ⟨A, rfl⟩ | ⟨s, rfl⟩ | ⟨rfl, z, hz, hz0⟩
        · simp
        · simp
        · exact absurd hz0 (Int.not_lt.mpr (hg.1 z hz).1)
      | ok p =>
        rw [exceptBind_ok]
        exact ih (step_preserves_good hg hs)

/-- C6: after loading any binary into a fresh VM, and after every number
of successful steps from there, every stack element and every stored
memory value lies in `0..2^32-1` and every memory address present is
nonnegative. -/
theorem claim_C6 (blob : List Nat) (vm0 vm : VM) (n : Nat)
    (hload : VM.init.load_program blob = .ok vm0)
    (hsteps : vm0.stepN n = .ok vm) :
    GoodVM vm :=
  stepN_good (load_program_good hload) n hsteps

/-- Witness for C6 on the loaded one-word program `[CONST 0]` after one
step. -/
theorem claim_C6_witness :
    VM.init.load_program [8, 0, 0, 0] =
      .ok { mem := [(0, 8)], stack := [], pc := 0, prog_len := 1 } ∧
    VM.stepN { mem := [(0, 8)], stack := [], pc := 0, prog_len := 1 } 1 =
      .ok { mem := [(0, 8)], stack := [0], pc := 1, prog_len := 1 } ∧
    GoodVM { mem := [(0, 8)], stack := [0], pc := 1, prog_len := 1 } :=
  ⟨by decide, by decide,
   claim_C6 [8, 0, 0, 0]
     { mem := [(0, 8)], stack := [], pc := 0, prog_len := 1 }
     { mem := [(0, 8)], stack := [0], pc := 1, prog_len := 1 } 1
     (by decide) (by decide)⟩

/-- C10: from any loaded state, no sequence of steps and no run ever takes
the negative-address fault branch — `invalidAddress` is unreachable
through execution. -/
theorem claim_C10 (blob : List Nat) (vm0 : VM)
    (hload : VM.init.load_program blob = .ok vm0) (n max_steps : Nat) :
    vm0.stepN n ≠ .error .invalidAddress ∧
    vm0.run max_steps ≠ .error .invalidAddress :=
  ⟨stepN_not_invalid (load_program_good hload) n,
   runAux_not_invalid (load_program_good hload) max_steps⟩

/-- Witness for C10 on the loaded one-word program `[CONST 0]`. -/
theorem claim_C10_witness :
    VM.init.load_program [8, 0, 0, 0] =
      .ok { mem := [(0, 8)], stack := [], pc := 0, prog_len := 1 } ∧
    VM.stepN { mem := [(0, 8)], stack := [], pc := 0, prog_len := 1 } 1 ≠
      .error .invalidAddress ∧
    VM.run { mem := [(0, 8)], stack := [], pc := 0, prog_len := 1 } 5 ≠
      .error .invalidAddress := by
  refine ⟨by decide, ?_, ?_⟩
  · exact (claim_C10 [8, 0, 0, 0]
      { mem := [(0, 8)], stack := [], pc := 0, prog_len := 1 }
      (by decide) 1 5).1
  · exact (claim_C10 [8, 0, 0, 0]
      { mem := [(0, 8)], stack := [], pc := 0, prog_len := 1 }
      (by decide) 1 5).2
/-- With a step budget of at least `prog_len - pc`, the run loop never
reports the step limit, and its result does not depend on the exact
budget. -/
theorem runAux_no_limit (r : Nat) (vm : VM) (h : vm.prog_len - vm.pc ≤ r) :
    vm.runAux r ≠ .error .stepLimitExceeded ∧
    ∀ r2, vm.prog_len - vm.pc ≤ r2 → vm.runAux r = vm.runAux r2 := by
  induction r generalizing vm with
  | zero =>
    have hhalt : vm.prog_len ≤ vm.pc := by omega
    constructor
    · unfold VM.runAux
      rw [if_pos hhalt]
      simp
    · intro r2 h2
      cases r2 with
      | zero => rfl
      | succ r2 =>
        unfold VM.runAux
        rw [if_pos hhalt, if_pos hhalt]
  | succ r ih =>
    by_cases hhalt : vm.prog_len ≤ vm.pc
    · constructor
      · unfold VM.runAux
        rw [if_pos hhalt]
        simp
      · intro r2 h2
        cases r2 with
        | zero =>
          unfold VM.runAux
          rw [if_pos hhalt, if_pos hhalt]
        | succ r2 =>
          unfold VM.runAux
          rw [if_pos hhalt, if_pos hhalt]
    · constructor
      · unfold VM.runAux
        rw [if_neg hhalt]
        cases hs : vm.step with
        | error e =>
          rw [exceptBind_err]
          rcases step_error_shape vm e hs with ⟨A, rfl⟩ | ⟨s, rfl⟩ | ⟨rfl, -⟩ <;>
            simp
        | ok p =>
          rw [exceptBind_ok]
          obtain ⟨-, hlen, hpc, -⟩ := step_ok_shape vm p.1 p.2 (by omega)
            (by rw [hs])
          exact (ih p.2 (by omega)).1
      · intro r2 h2
        cases r2 with
        | zero => exact absurd (by omega : vm.prog_len ≤ vm.pc) hhalt
        | succ r2 =>
          unfold VM.runAux
          rw [if_neg hhalt, if_neg hhalt]
          cases hs : vm.step with
          | error e => rw [exceptBind_err, exceptBind_err]
          | ok p =>
            rw [exceptBind_ok, exceptBind_ok]
            obtain ⟨-, hlen, hpc, -⟩ := step_ok_shape vm p.1 p.2 (by omega)
              (by rw [hs])
            exact (ih p.2 (by omega)).2 r2 (by omega)

/-- A budget strictly smaller than the remaining program length makes the
run loop fail with the step limit, provided the full-budget run succeeds. -/
theorem runAux_short (r : Nat) (vm : VM) (vmf : VM)
    (hok : vm.runAux (vm.prog_len - vm.pc) = .ok vmf)
    (hr : r < vm.prog_len - vm.pc) :
    vm.runAux r = .error .stepLimitExceeded := by
  induction r generalizing vm with
  | zero =>
    unfold VM.runAux
    rw [if_neg (by omega)]
  | succ r ih =>
    have hpc : vm.pc < vm.prog_len := by omega
    unfold VM.runAux
    rw [if_neg (by omega)]
    obtain ⟨k, hk⟩ : ∃ k, vm.prog_len - vm.pc = k + 1 :=
      ⟨vm.prog_len - vm.pc - 1, by omega⟩
    rw [hk] at hok
    unfold VM.runAux at hok
    rw [if_neg (by omega)] at hok
    cases hs : vm.step with
    | error e =>
      rw [hs, exceptBind_err] at hok
      exact absurd hok (by simp)
    | ok p =>
      rw [hs, exceptBind_ok] at hok
      rw [exceptBind_ok]
      obtain ⟨-, hlen, hpcS, -⟩ := step_ok_shape vm p.1 p.2 hpc (by rw [hs])
      apply ih p.2
      · have hmeas : p.2.prog_len - p.2.pc = k := by omega
        rw [hmeas]
        exact hok
      · omega

/-- C9: the program counter increases by exactly 1 on every executed step
and no instruction changes `prog_len`, so a loaded program halts — or
faults — after at most `prog_len` steps: with any `max_steps ≥ prog_len`,
`run` never reports `stepLimitExceeded` and gives the same result as with
a budget of exactly `prog_len`, even if STORE overwrites program cells. -/
theorem claim_C9 (vm : VM) (M : Nat) (hpc0 : vm.pc = 0)
    (hM : vm.prog_len ≤ M) :
    (∀ (w : VM) (b : Bool) (w' : VM), w.pc < w.prog_len →
       w.step = .ok (b, w') → w'.pc = w.pc + 1 ∧ w'.prog_len = w.prog_len) ∧
    vm.run M ≠ .error .stepLimitExceeded ∧
    vm.run M = vm.run vm.prog_len := by
  refine ⟨?_, ?_, ?_⟩
  · intro w b w' hw hstep
    obtain ⟨-, hlen, hpcw, -⟩ := step_ok_shape w b w' hw hstep
    exact ⟨hpcw, hlen⟩
  · exact (runAux_no_limit M vm (by omega)).1
  · exact (runAux_no_limit M vm (by omega)).2 vm.prog_len (by omega)

/-- Witness for C9 on the loaded one-word program `[CONST 0]` with budget
3 ≥ 1. -/
theorem claim_C9_witness :
    (VM.mk [(0, 8)] [] 0 1).pc = 0 ∧ (VM.mk [(0, 8)] [] 0 1).prog_len ≤ 3 ∧
    VM.run (VM.mk [(0, 8)] [] 0 1) 3 ≠ .error .stepLimitExceeded ∧
    VM.run (VM.mk [(0, 8)] [] 0 1) 3 = VM.run (VM.mk [(0, 8)] [] 0 1) 1 := by
  have h := claim_C9 (VM.mk [(0, 8)] [] 0 1) 3 rfl (by decide)
  exact ⟨rfl, by decide, h.2.1, h.2.2⟩

/-- C1 amended: a loaded program that needs `N+1` steps to halt (its
`prog_len` is `N+1` and running it with budget `N+1` succeeds) fails with
`stepLimitExceeded` when `max_steps = N`, and halts normally with the same
final state for every `max_steps ≥ N+1` (not `≥ N`, as the claim put it:
at `max_steps = N` the step limit fires). -/
theorem claim_C1_amended (vm : VM) (N : Nat) (vmf : VM)
    (hpc0 : vm.pc = 0) (hlen : vm.prog_len = N + 1)
    (hok : vm.run (N + 1) = .ok vmf) :
    vm.run N = .error .stepLimitExceeded ∧
    ∀ M, N + 1 ≤ M → vm.run M = .ok vmf := by
  have hmeas : vm.prog_len - vm.pc = N + 1 := by omega
  constructor
  · refine runAux_short N vm vmf ?_ (by omega)
    rw [hmeas]
    exact hok
  · intro M hM
    have heq := (runAux_no_limit (N + 1) vm (by omega)).2 M (by omega)
    show vm.runAux M = .ok vmf
    rw [← heq]
    exact hok

/-- Witness for C1 amended: the loaded one-word program `[CONST 0]`
(`N = 0`) faults at budget 0 and halts at budgets 1 and 7. -/
theorem claim_C1_amended_witness :
    (VM.mk [(0, 8)] [] 0 1).pc = 0 ∧
    (VM.mk [(0, 8)] [] 0 1).prog_len = 0 + 1 ∧
    VM.run (VM.mk [(0, 8)] [] 0 1) (0 + 1) = .ok (VM.mk [(0, 8)] [0] 1 1) ∧
    VM.run (VM.mk [(0, 8)] [] 0 1) 0 = .error .stepLimitExceeded ∧
    VM.run (VM.mk [(0, 8)] [] 0 1) 7 = .ok (VM.mk [(0, 8)] [0] 1 1) := by
  refine ⟨rfl, rfl, by decide, ?_, ?_⟩
  · exact (claim_C1_amended (VM.mk [(0, 8)] [] 0 1) 0 (VM.mk [(0, 8)] [0] 1 1)
      rfl rfl (by decide)).1
  · exact (claim_C1_amended (VM.mk [(0, 8)] [] 0 1) 0 (VM.mk [(0, 8)] [0] 1 1)
      rfl rfl (by decide)).2 7 (by omega)
/-- C3: STORE pops the address first (the most recently pushed element)
and the value second, then writes the value masked to 32 bits at that
address; in particular the assembled program `[CONST 7, CONST 3, STORE]`
run from a fresh VM leaves `memory[3] = 7`. -/
theorem claim_C3 (vm : VM) (w a v : Int) (rest : List Int)
    (hpc : vm.pc < vm.prog_len)
    (hw : vm.mem_get (vm.pc : Int) = .ok w)
    (hdec : decode_word w.toNat = .ok (28, "STORE", none))
    (hstack : vm.stack = a :: v :: rest)
    (ha : 0 ≤ a) :
    vm.step = .ok (true,
      { mem := memInsert vm.mem a (v % 4294967296), stack := rest,
        pc := vm.pc + 1, prog_len := vm.prog_len }) ∧
    (runProgram [{ op := "CONST", value := some 7 },
        { op := "CONST", value := some 3 },
        { op := "STORE" }] 1000000).map
      (fun vmf => (memLookup vmf.mem 3).getD 0) = some 7 := by
  constructor
  · unfold VM.step
    rw [if_neg (by omega), hw, exceptBind_ok, hdec, exceptBind_ok]
    dsimp only [Option.getD_some]
    rw [if_neg (by decide), if_neg (by decide), if_pos rfl]
    rw [hstack]
    dsimp only []
    rw [mem_set_of_nonneg _ _ _ ha, exceptBind_ok]
  · decide

/-- Witness for C3: a one-word STORE program with stack `[3, 7]` writes
`7` (masked) at address `3` and pops both operands. -/
theorem claim_C3_witness :
    VM.step (VM.mk [(0, 28)] [3, 7] 0 1) =
      .ok (true, VM.mk (memInsert [(0, 28)] 3 (7 % 4294967296)) [] 1 1) ∧
    (runProgram [{ op := "CONST", value := some 7 },
        { op := "CONST", value := some 3 },
        { op := "STORE" }] 1000000).map
      (fun vmf => (memLookup vmf.mem 3).getD 0) = some 7 :=
  claim_C3 (VM.mk [(0, 28)] [3, 7] 0 1) 28 3 7 [] (by decide) (by decide)
    (by decide) (by decide) (by decide)

/-- C4: MAX pops the base address first, then `x`, reads
`y = memory[base + offset]` (0 for an untouched address), and pushes
`max x y`; in particular with `memory[5] = 10`, the assembled program
`[CONST 2, CONST 5, MAX offset=0]` finishes with stack `[10]`. -/
theorem claim_C4 (vm : VM) (w base x y : Int) (rest : List Int) (off : Nat)
    (hpc : vm.pc < vm.prog_len)
    (hw : vm.mem_get (vm.pc : Int) = .ok w)
    (hdec : decode_word w.toNat = .ok (25, "MAX", some off))
    (hstack : vm.stack = base :: x :: rest)
    (hbase : 0 ≤ base + (off : Int))
    (hy : vm.mem_get (base + (off : Int)) = .ok y) :
    vm.step = .ok (true,
      { mem := vm.mem, stack := max x y :: rest,
        pc := vm.pc + 1, prog_len := vm.prog_len }) ∧
    (do
      let blob ← (assemble_program [{ op := "CONST", value := some 2 },
        { op := "CONST", value := some 5 },
        { op := "MAX", offset := some 0 }]).toOption
      let vm1 ← (VM.init.load_program blob).toOption
      let vm2 ← (vm1.mem_set 5 10).toOption
      let vmf ← (vm2.run 1000000).toOption
      some vmf.stack) = some [10] := by
  constructor
  · unfold VM.step
    rw [if_neg (by omega), hw, exceptBind_ok, hdec, exceptBind_ok]
    dsimp only [Option.getD_some]
    rw [if_neg (by decide), if_neg (by decide), if_neg (by decide),
      if_pos rfl]
    rw [hstack]
    dsimp only []
    rw [mem_get_of_nonneg _ _ hbase, exceptBind_ok]
    dsimp only []
    have hy2 : (memLookup vm.mem (base + (off : Int))).getD 0 = y := by
      have h2 := (mem_get_of_nonneg vm _ hbase).symm.trans hy
      injection h2
    rw [hy2]
  · decide

/-- Witness for C4: a one-word MAX program with `memory[5] = 10` and stack
`[5, 2]` pushes `max 2 10 = 10`. -/
theorem claim_C4_witness :
    VM.step (VM.mk [(0, 25), (5, 10)] [5, 2] 0 1) =
      .ok (true, VM.mk [(0, 25), (5, 10)] [max 2 10] 1 1) ∧
    (do
      let blob ← (assemble_program [{ op := "CONST", value := some 2 },
        { op := "CONST", value := some 5 },
        { op := "MAX", offset := some 0 }]).toOption
      let vm1 ← (VM.init.load_program blob).toOption
      let vm2 ← (vm1.mem_set 5 10).toOption
      let vmf ← (vm2.run 1000000).toOption
      some vmf.stack) = some [10] :=
  claim_C4 (VM.mk [(0, 25), (5, 10)] [5, 2] 0 1) 25 5 2 10 [] 0
    (by decide) (by decide) (by decide) (by decide) (by decide) (by decide)

/-- Assembled words serialize to exactly 4 bytes each. -/
theorem flatten_word_length (items : List IRItem) :
    ((items.map (fun item => wordToBytes item.word)).flatten).length =
      4 * items.length := by
  induction items with
  | nil => rfl
  | cons i rest ih =>
    simp only [List.map_cons, List.flatten_cons, List.length_append, ih,
      List.length_cons]
    have h4 : (wordToBytes i.word).length = 4 := rfl
    omega

/-- `pure` in the `Except` monad is `Except.ok`. -/
theorem exceptPure_eq_ok {e a : Type} (x : a) :
    (pure x : Except e a) = Except.ok x := rfl

/-- A successful instruction-wise assembly yields one word per input. -/
theorem mapM_assemble_length (data : List SymInstr) (items : List IRItem)
    (h : data.mapM assemble_instruction = .ok items) :
    items.length = data.length := by
  induction data generalizing items with
  | nil =>
    rw [List.mapM_nil] at h
    injection h with h1
    subst h1
    rfl
  | cons d rest ih =>
    rw [List.mapM_cons] at h
    cases hd : assemble_instruction d with
    | error e =>
      rw [hd, exceptBind_err] at h
      exact absurd h (by simp)
    | ok it =>
      rw [hd, exceptBind_ok] at h
      cases hrest : rest.mapM assemble_instruction with
      | error e =>
        rw [hrest, exceptBind_err] at h
        exact absurd h (by simp)
      | ok ys =>
        rw [hrest, exceptBind_ok, exceptPure_eq_ok] at h
        injection h with h1
        rw [← h1]
        simp only [List.length_cons, ih ys hrest]

/-- A failing instruction-wise assembly pinpoints a failing instruction. -/
theorem mapM_assemble_error (data : List SymInstr) (e : AsmError)
    (h : data.mapM assemble_instruction = .error e) :
    ∃ ins ∈ data, assemble_instruction ins = .error e := by
  induction data with
  | nil =>
    rw [List.mapM_nil, exceptPure_eq_ok] at h
    exact absurd h (by simp)
  | cons d rest ih =>
    rw [List.mapM_cons] at h
    cases hd : assemble_instruction d with
    | error e2 =>
      rw [hd, exceptBind_err] at h
      injection h with h1
      refine ⟨d, List.mem_cons_self _ _, ?_⟩
      rw [hd, h1]
    | ok it =>
      rw [hd, exceptBind_ok] at h
      cases hrest : rest.mapM assemble_instruction with
      | error e2 =>
        rw [hrest, exceptBind_err] at h
        injection h with h1
        subst h1
        obtain ⟨ins, hins, herr⟩ := ih hrest
        exact ⟨ins, List.mem_cons_of_mem _ hins, herr⟩
      | ok ys =>
        rw [hrest, exceptBind_ok, exceptPure_eq_ok] at h
        exact absurd h (by simp)

/-- C8: assembly is atomic — either every instruction assembles and the
output is exactly one serialized 32-bit word (4 bytes) per input
instruction, in order (total length `4k`), or some instruction fails and
no output is produced at all. -/
theorem claim_C8 (data : List SymInstr) :
    (∃ bytes items, assemble_program data = .ok bytes ∧
       data.mapM assemble_instruction = .ok items ∧
       items.length = data.length ∧
       bytes = (items.map (fun item => wordToBytes item.word)).flatten ∧
       bytes.length = 4 * data.length) ∨
    (∃ e, assemble_program data = .error e ∧
       ∃ ins ∈ data, assemble_instruction ins = .error e) := by
  cases hm : data.mapM assemble_instruction with
  | ok items =>
    left
    refine ⟨(items.map (fun item => wordToBytes item.word)).flatten, items,
      ?_, rfl, mapM_assemble_length data items hm, rfl, ?_⟩
    · unfold assemble_program
      rw [hm, exceptBind_ok]
      rfl
    · rw [flatten_word_length, mapM_assemble_length data items hm]
  | error e =>
    right
    refine ⟨e, ?_, mapM_assemble_error data e hm⟩
    unfold assemble_program
    rw [hm, exceptBind_err]
